import Mathlib

/-!
Verification development for the parallel stencil-based image-processing
engine (serial, OpenMP and MPI variants of the PNM image editor, plus the
block-row partition and halo-exchange layer of the MPI variant).

Pixels are modelled as natural numbers (byte values), pixel buffers as
total functions from (row, column, channel) to values, and the double
arithmetic of the convolution path as exact rational arithmetic together
with an explicit model of lrint under the default rounding mode
(round to nearest, ties to even).
-/

namespace ImageEditor

/-- Model of lrint under the default FE_TONEAREST rounding mode:
round to the nearest integer, ties go to the even integer. -/
def roundHalfEven (q : ℚ) : ℤ :=
  if q - ⌊q⌋ < 1/2 then ⌊q⌋
  else if 1/2 < q - ⌊q⌋ then ⌊q⌋ + 1
  else if ⌊q⌋ % 2 = 0 then ⌊q⌋ else ⌊q⌋ + 1

/-- Model of clamp_u8_double from serial_image_editor.c and
image_editor_mpi.c: negative values clamp to 0, values above 255 clamp
to 255, and otherwise the value is rounded by lrint. -/
def clamp_u8_double (v : ℚ) : ℕ :=
  if v < 0 then 0 else if 255 < v then 255 else (roundHalfEven v).toNat

/-- Rounding written from the words of the spec sentence under claim C4:
round half away from zero (for the nonnegative values reaching the
final branch of the clamp this is floor of v + 1/2). -/
def roundHalfAwayFromZero (q : ℚ) : ℤ :=
  if 0 ≤ q then ⌊q + 1/2⌋ else ⌈q - 1/2⌉

/-- Clamp as described by the literal wording of claim C4, with
round-half-away-from-zero in the final branch. -/
def clampHalfAwaySpec (v : ℚ) : ℕ :=
  if v < 0 then 0 else if 255 < v then 255 else (roundHalfAwayFromZero v).toNat

/-- Clamp as described by the amended wording of claim C4: round to the
nearest integer with ties to even, then clamp the integer into [0, 255]. -/
def clampHalfEvenSpec (v : ℚ) : ℕ :=
  (min 255 (max 0 (roundHalfEven v))).toNat

theorem roundHalfEven_intCast (n : ℤ) : roundHalfEven (n : ℚ) = n := by
  simp [roundHalfEven]

theorem roundHalfEven_le (q : ℚ) : (roundHalfEven q : ℚ) ≤ q + 1/2 := by
  have h0 : ((⌊q⌋ : ℤ) : ℚ) ≤ q := Int.floor_le q
  have h1 : q < ⌊q⌋ + 1 := Int.lt_floor_add_one q
  unfold roundHalfEven
  split_ifs <;> push_cast <;> linarith

theorem le_roundHalfEven (q : ℚ) : q - 1/2 ≤ (roundHalfEven q : ℚ) := by
  have h0 : ((⌊q⌋ : ℤ) : ℚ) ≤ q := Int.floor_le q
  have h1 : q < ⌊q⌋ + 1 := Int.lt_floor_add_one q
  unfold roundHalfEven
  split_ifs <;> push_cast <;> linarith

theorem roundHalfEven_mono {p q : ℚ} (h : p ≤ q) :
    roundHalfEven p ≤ roundHalfEven q := by
  by_contra hc
  push_neg at hc
  have h1 : (roundHalfEven q : ℚ) + 1 ≤ (roundHalfEven p : ℚ) := by
    exact_mod_cast hc
  have h2 := roundHalfEven_le p
  have h3 := le_roundHalfEven q
  have hqp : q ≤ p := by linarith
  have hpq : p = q := le_antisymm h hqp
  subst hpq
  exact absurd hc (lt_irrefl _)

theorem roundHalfEven_add_half (n : ℤ) :
    roundHalfEven ((n : ℚ) + 1/2) = if n % 2 = 0 then n else n + 1 := by
  have hf : ⌊(n : ℚ) + 1/2⌋ = n := by
    rw [Int.floor_eq_iff]
    constructor
    · linarith
    · push_cast
      linarith
  unfold roundHalfEven
  rw [hf]
  have hfr : ((n : ℚ) + 1/2) - n = 1/2 := by ring
  rw [hfr]
  simp

theorem roundHalfEven_nonneg {q : ℚ} (h : 0 ≤ q) : 0 ≤ roundHalfEven q := by
  have := roundHalfEven_mono h
  rwa [show roundHalfEven (0 : ℚ) = 0 from roundHalfEven_intCast 0] at this

theorem roundHalfEven_le_255 {q : ℚ} (h : q ≤ 255) :
    roundHalfEven q ≤ 255 := by
  have h2 := roundHalfEven_mono h
  rwa [show roundHalfEven (255 : ℚ) = 255 by
    rw [show (255 : ℚ) = ((255 : ℤ) : ℚ) by norm_num, roundHalfEven_intCast]] at h2

theorem clamp_u8_double_mono {p q : ℚ} (h : p ≤ q) :
    clamp_u8_double p ≤ clamp_u8_double q := by
  rcases lt_or_le p 0 with hp | hp
  · rw [clamp_u8_double, if_pos hp]
    exact Nat.zero_le _
  · have hq : ¬q < 0 := not_lt.mpr (le_trans hp h)
    rw [clamp_u8_double, if_neg (not_lt.mpr hp), clamp_u8_double, if_neg hq]
    rcases lt_or_le 255 q with h255 | h255
    · rw [if_pos h255]
      by_cases hp255 : 255 < p
      · rw [if_pos hp255]
      · rw [if_neg hp255]
        have hb : roundHalfEven p ≤ 255 :=
          roundHalfEven_le_255 (le_of_not_lt hp255)
        calc (roundHalfEven p).toNat
            ≤ (255 : ℤ).toNat := Int.toNat_le_toNat hb
          _ = 255 := rfl
    · rw [if_neg (not_lt.mpr h255), if_neg (not_lt.mpr (le_trans h h255))]
      exact Int.toNat_le_toNat (roundHalfEven_mono h)

theorem clamp_u8_double_eq_spec (v : ℚ) :
    clamp_u8_double v = clampHalfEvenSpec v := by
  unfold clamp_u8_double clampHalfEvenSpec
  split_ifs with h1 h2
  · have hle : roundHalfEven v ≤ 0 := by
      have := roundHalfEven_mono (le_of_lt h1)
      rwa [show roundHalfEven (0 : ℚ) = 0 from roundHalfEven_intCast 0] at this
    rw [max_eq_left hle, min_eq_right]
    · rfl
    · norm_num
  · have hge : (255 : ℤ) ≤ roundHalfEven v := by
      have h2 := roundHalfEven_mono (le_of_lt h2)
      rwa [show roundHalfEven (255 : ℚ) = 255 by
        rw [show (255 : ℚ) = ((255 : ℤ) : ℚ) by norm_num,
          roundHalfEven_intCast]] at h2
    rw [max_eq_right (le_trans (by norm_num) hge), min_eq_left hge]
    rfl
  · have h0 : 0 ≤ roundHalfEven v := roundHalfEven_nonneg (le_of_not_lt h1)
    have h255 : roundHalfEven v ≤ 255 := roundHalfEven_le_255 (le_of_not_lt h2)
    rw [max_eq_right h0, min_eq_right h255]

/-- The Image state of the serial and OpenMP editors: dimensions, channel
count, the pixel buffer as a total function from (row, column, channel)
to byte value (the C buffer is the flat array data[(y*w+x)*ch+c]), the
selection rectangle and the loaded flag. -/
structure Image where
  w : ℕ
  h : ℕ
  ch : ℕ
  data : ℕ → ℕ → ℕ → ℕ
  x1 : ℕ
  y1 : ℕ
  x2 : ℕ
  y2 : ℕ
  loaded : Bool

/-- The selection invariant maintained by load, select and crop. -/
def validSel (img : Image) : Prop :=
  img.x1 < img.x2 ∧ img.x2 ≤ img.w ∧ img.y1 < img.y2 ∧ img.y2 ≤ img.h

instance (img : Image) : Decidable (validSel img) := by
  unfold validSel
  exact inferInstance

/-- Model of img_select_all. -/
def img_select_all (img : Image) : Image :=
  if img.loaded = false then img
  else { img with x1 := 0, y1 := 0, x2 := img.w, y2 := img.h }

/-- Model of img_select_rect: the arguments are first swapped into
ascending order per axis, then validated; on failure the image is
returned unchanged. -/
def img_select_rect (img : Image) (a b c d : ℤ) : Image :=
  if img.loaded = false then img else
  if min a c < 0 ∨ min b d < 0 ∨ (img.w : ℤ) < max a c ∨ (img.h : ℤ) < max b d ∨
      min a c = max a c ∨ min b d = max b d then img
  else { img with x1 := (min a c).toNat, y1 := (min b d).toNat,
                  x2 := (max a c).toNat, y2 := (max b d).toNat }

/-- Model of img_crop: the new buffer holds the selected sub-block
(row y of the result is the slice of old row y1+y starting at column x1)
and the selection is reset to the whole new extent. -/
def img_crop (img : Image) : Image :=
  if img.loaded = false then img else
  { w := img.x2 - img.x1, h := img.y2 - img.y1, ch := img.ch,
    data := fun y x c => img.data (img.y1 + y) (img.x1 + x) c,
    x1 := 0, y1 := 0, x2 := img.x2 - img.x1, y2 := img.y2 - img.y1,
    loaded := true }

/-- The border adjustment (x1 == 0) x1++ of the convolution and Sobel
paths. -/
def adjLo (v : ℕ) : ℕ := if v = 0 then 1 else v

/-- The border adjustment (x2 == w) x2-- of the convolution and Sobel
paths. -/
def adjHi (v bound : ℕ) : ℕ := if v = bound then bound - 1 else v

/-- The set of pixels actually written by a convolution or Sobel pass:
the selection shrunk away from the global image border. -/
def inRegion (img : Image) (y x : ℕ) : Prop :=
  adjLo img.y1 ≤ y ∧ y < adjHi img.y2 img.h ∧
  adjLo img.x1 ≤ x ∧ x < adjHi img.x2 img.w

instance (img : Image) (y x : ℕ) : Decidable (inRegion img y x) := by
  unfold inRegion
  exact inferInstance

/-- The 3x3 read window of a stencil centred at (y, x), channel c, over a
buffer d: entry (ky, kx) is the byte at row y-1+ky, column x-1+kx.
Matches the source reads of data[((y+ky)*w + (x+kx))*ch + c] for
ky, kx in -1..1. -/
def window (d : ℕ → ℕ → ℕ → ℕ) (y x c : ℕ) : Fin 3 → Fin 3 → ℕ :=
  fun ky kx => d (y - 1 + (ky : ℕ)) (x - 1 + (kx : ℕ)) c

/-- The accumulated convolution sum of apply_conv3x3: K[ky][kx] times the
source byte, over the 3x3 window, in exact rational arithmetic. -/
def conv3x3At (K : Fin 3 → Fin 3 → ℚ) (get : Fin 3 → Fin 3 → ℕ) : ℚ :=
  ∑ ky : Fin 3, ∑ kx : Fin 3, K ky kx * (get ky kx : ℚ)

/-- Shared shape of apply_conv3x3 and apply_sobel in the serial and
OpenMP editors: copy the buffer, recompute every pixel of the shrunk
selection from its 3x3 window in the old buffer, swap. The two C
functions have identical control flow and differ only in the per-window
computation f. (The OpenMP variant runs the identical per-pixel writes
in parallel to disjoint destinations, so its result is this same
function.) -/
def applyStencil (img : Image) (f : (Fin 3 → Fin 3 → ℕ) → ℕ) : Image :=
  if img.loaded = false then img else
  { img with data := fun y x c =>
      if inRegion img y x then f (window img.data y x c) else img.data y x c }

/-- Model of apply_conv3x3 for kernel K. -/
def apply_conv3x3 (img : Image) (K : Fin 3 → Fin 3 → ℚ) : Image :=
  applyStencil img (fun get => clamp_u8_double (conv3x3At K get))

/-- The Sobel horizontal mask Gx. -/
def sobelGx : Fin 3 → Fin 3 → ℤ := ![![-1, 0, 1], ![-2, 0, 2], ![-1, 0, 1]]

/-- The Sobel vertical mask Gy. -/
def sobelGy : Fin 3 → Fin 3 → ℤ := ![![1, 2, 1], ![0, 0, 0], ![-1, -2, -1]]

/-- Nearest natural number to the real square root of n. Since the
square root of a natural number is never a half-integer there is no tie
to break, so this is exactly what lrint(sqrt((double)n)) yields for the
magnitudes reachable here. -/
def sqrtNearest (n : ℕ) : ℕ :=
  if (2 * Nat.sqrt n + 1) ^ 2 < 4 * n then Nat.sqrt n + 1 else Nat.sqrt n

/-- Model of clamp_u8_double applied to sqrt((double)n): the value
exceeds 255 exactly when n exceeds 255^2 = 65025; otherwise it rounds
to the nearest integer. -/
def sobelClamp (n : ℕ) : ℕ := if 65025 < n then 255 else sqrtNearest n

/-- The per-window computation of apply_sobel: two integer accumulators
against the fixed Gx and Gy masks, then the clamped rounded magnitude
sqrt(sx*sx + sy*sy). -/
def sobelAt (get : Fin 3 → Fin 3 → ℕ) : ℕ :=
  sobelClamp (((∑ ky : Fin 3, ∑ kx : Fin 3, sobelGx ky kx * (get ky kx : ℤ)) ^ 2 +
    (∑ ky : Fin 3, ∑ kx : Fin 3, sobelGy ky kx * (get ky kx : ℤ)) ^ 2).toNat)

/-- Model of apply_sobel. -/
def apply_sobel (img : Image) : Image :=
  applyStencil img sobelAt

/-- The 256-bin histogram of the whole image (the fr array of equalize):
how many pixels of the single-channel image hold value v. -/
def hist (img : Image) (v : ℕ) : ℕ :=
  ∑ y ∈ Finset.range img.h, ∑ x ∈ Finset.range img.w,
    if img.data y x 0 = v then 1 else 0

/-- The running cumulative sum cdf[v] of the histogram. -/
def cdf (img : Image) (v : ℕ) : ℕ :=
  ∑ k ∈ Finset.range (v + 1), hist img k

/-- Model of equalize: defined for loaded single-channel images; every
pixel p is remapped to clamp_u8_double(255 * cdf[p] / area). -/
def equalize (img : Image) : Image :=
  if img.loaded = false then img
  else if img.ch ≠ 1 then img
  else { img with data := fun y x c =>
    clamp_u8_double (255 * (cdf img (img.data y x c) : ℚ) /
      ((img.w * img.h : ℕ) : ℚ)) }

/-- Model of compute_row_partition: the number of global rows owned by
rank r when H rows are split over P ranks (base = H/P, plus one extra
row for the first H mod P ranks). -/
def local_h (H P r : ℕ) : ℕ := H / P + if r < H % P then 1 else 0

/-- Model of compute_row_partition: the first global row owned by rank
r, rank*base + min(rank, rem). -/
def start_row (H P r : ℕ) : ℕ := r * (H / P) + min r (H % P)

theorem start_row_zero (H P : ℕ) : start_row H P 0 = 0 := by
  simp [start_row]

theorem start_row_succ (H P r : ℕ) :
    start_row H P (r + 1) = start_row H P r + local_h H P r := by
  unfold start_row local_h
  rcases Nat.lt_or_ge r (H % P) with h | h
  · rw [if_pos h, Nat.min_eq_left (Nat.le_of_lt h), Nat.min_eq_left h]
    have e : (r + 1) * (H / P) = r * (H / P) + H / P := by ring
    omega
  · rw [if_neg (not_lt.mpr h), Nat.min_eq_right h,
      Nat.min_eq_right (le_trans h (Nat.le_succ r))]
    ring

theorem start_row_eq_sum (H P r : ℕ) :
    start_row H P r = ∑ s ∈ Finset.range r, local_h H P s := by
  induction r with
  | zero => rw [Finset.sum_range_zero, start_row_zero]
  | succ n ih => rw [Finset.sum_range_succ, ← ih, start_row_succ]

theorem start_row_self (H P : ℕ) (hP : 1 ≤ P) : start_row H P P = H := by
  unfold start_row
  rw [Nat.min_eq_right (le_of_lt (Nat.mod_lt H hP))]
  exact Nat.div_add_mod H P

theorem local_h_antitone (H P : ℕ) {r s : ℕ} (h : r ≤ s) :
    local_h H P s ≤ local_h H P r := by
  unfold local_h
  rcases Nat.lt_or_ge s (H % P) with hs | hs
  · rw [if_pos hs, if_pos (lt_of_le_of_lt h hs)]
  · rw [if_neg (not_lt.mpr hs)]
    exact Nat.add_le_add_left (Nat.zero_le _) _

theorem sum_local_h (H P : ℕ) (hP : 1 ≤ P) :
    ∑ r ∈ Finset.range P, local_h H P r = H := by
  rw [← start_row_eq_sum, start_row_self H P hP]

theorem start_add_le (H P : ℕ) (hP : 1 ≤ P) {r : ℕ} (hr : r < P) :
    start_row H P r + local_h H P r ≤ H := by
  rw [← start_row_succ, start_row_eq_sum]
  conv_rhs => rw [← sum_local_h H P hP]
  exact Finset.sum_le_sum_of_subset (Finset.range_subset.mpr hr)

theorem start_row_eq_H_of_empty (H P : ℕ) (hP : 1 ≤ P) {r : ℕ} (hr : r ≤ P)
    (h0 : local_h H P r = 0) : start_row H P r = H := by
  have hz : ∀ s, r ≤ s → local_h H P s = 0 := fun s hs =>
    Nat.le_zero.mp (h0 ▸ local_h_antitone H P hs)
  rw [start_row_eq_sum]
  conv_rhs => rw [← sum_local_h H P hP]
  exact Finset.sum_subset (Finset.range_subset.mpr hr)
    (fun x _ hx => hz x (le_of_not_lt (fun hlt => hx (Finset.mem_range.mpr hlt))))

theorem exists_owner (H P : ℕ) (hP : 1 ≤ P) {gy : ℕ} (hgy : gy < H) :
    ∃ r, r < P ∧ start_row H P r ≤ gy ∧
      gy < start_row H P r + local_h H P r := by
  suffices h : ∀ k, gy < start_row H P k → ∃ r, r < k ∧
      start_row H P r ≤ gy ∧ gy < start_row H P r + local_h H P r by
    exact h P (by rwa [start_row_self H P hP])
  intro k
  induction k with
  | zero =>
    intro hk
    rw [start_row_zero] at hk
    omega
  | succ n ih =>
    intro hk
    rcases Nat.lt_or_ge gy (start_row H P n) with h | h
    · obtain ⟨r, hr, h1, h2⟩ := ih h
      exact ⟨r, Nat.lt_succ_of_lt hr, h1, h2⟩
    · exact ⟨n, Nat.lt_succ_self n, h, by rwa [← start_row_succ]⟩

theorem ceil_div_of_mod_ne_zero (H P : ℕ) (hP : 1 ≤ P) (hm : H % P ≠ 0) :
    (H + P - 1) / P = H / P + 1 := by
  have hd := Nat.div_add_mod H P
  have hmP : H % P < P := Nat.mod_lt H hP
  have h1 : H + P - 1 = H % P - 1 + (H / P + 1) * P := by
    have e1 : (H / P + 1) * P = P * (H / P) + P := by ring
    omega
  rw [h1, Nat.add_mul_div_right _ _ hP, Nat.div_eq_of_lt (by omega),
    Nat.zero_add]

/-- A rank-local pixel buffer with halo rows: index 0 is the top halo,
indices 1..local_h are the owned rows, index local_h+1 is the bottom
halo; the remaining two indices are column and channel. -/
abbrev Buf := ℕ → ℕ → ℕ → ℕ

/-- The family of rank-local buffers right after MPI_Scatterv in
mpi_load_scatter: owned rows hold the matching global image rows, the
two halo rows still hold arbitrary uninitialised memory, modelled by the
junk parameter. -/
def scatterBufs (img : Image) (P : ℕ) (junk : ℕ → Buf) : ℕ → Buf :=
  fun r ly x c =>
    if 1 ≤ ly ∧ ly ≤ local_h img.h P r then
      img.data (start_row img.h P r + ly - 1) x c
    else junk r ly x c

/-- The row that rank r sends to rank r+1 during exchange_halo, namely
the contents of its buffer row local_h at that moment. The paired
sendrecv calls happen in rank order along the chain, and a rank with no
owned rows forwards from row 0 the row it has just received from above
(or, for rank 0, its uninitialised row 0). -/
def sentDown (lh : ℕ → ℕ) (bufs : ℕ → Buf) : ℕ → ℕ → ℕ → ℕ
  | 0 => fun x c => if 1 ≤ lh 0 then bufs 0 (lh 0) x c else bufs 0 0 x c
  | r + 1 => fun x c =>
    if 1 ≤ lh (r + 1) then bufs (r + 1) (lh (r + 1)) x c
    else sentDown lh bufs r x c

/-- Model of exchange_halo followed by fill_boundary_halo, acting on the
whole family of rank buffers. Rank r receives into row 0 the row that
rank r-1 sends downward, and into row local_h+1 the first buffer row of
rank r+1 (which is still in its pre-exchange state when that pairing
runs); the global top and bottom ranks instead duplicate their own
first/last owned row when they own at least one row. All other rows are
untouched. -/
def exchange_halo (P : ℕ) (lh : ℕ → ℕ) (bufs : ℕ → Buf) : ℕ → Buf :=
  fun r ly x c =>
    if ly = 0 then
      if r = 0 then (if 1 ≤ lh 0 then bufs 0 1 x c else bufs 0 0 x c)
      else sentDown lh bufs (r - 1) x c
    else if ly = lh r + 1 then
      if r + 1 < P then bufs (r + 1) 1 x c
      else if 1 ≤ lh r then bufs r (lh r) x c else bufs r (lh r + 1) x c
    else bufs r ly x c

/-- Shared shape of mpi_apply_conv3x3 and mpi_apply_sobel on rank r: the
local buffer after scatter and halo exchange is copied, then every owned
row whose global coordinates fall in the shrunk selection is recomputed
from its 3x3 window in the exchanged buffer. The bound and region tests
are exactly those of the MPI source (ly in 1..local_h, then the global
row gy = start_row+ly-1 and column checked against the adjusted
selection). -/
def mpiApplyStencil (img : Image) (f : (Fin 3 → Fin 3 → ℕ) → ℕ) (P : ℕ)
    (junk : ℕ → Buf) (r : ℕ) : Buf :=
  fun ly x c =>
    if 1 ≤ ly ∧ ly ≤ local_h img.h P r ∧
        inRegion img (start_row img.h P r + ly - 1) x then
      f (window (exchange_halo P (local_h img.h P) (scatterBufs img P junk) r)
        ly x c)
    else exchange_halo P (local_h img.h P) (scatterBufs img P junk) r ly x c

/-- Model of mpi_apply_conv3x3 on rank r. -/
def mpi_apply_conv3x3 (img : Image) (K : Fin 3 → Fin 3 → ℚ) (P : ℕ)
    (junk : ℕ → Buf) (r : ℕ) : Buf :=
  mpiApplyStencil img (fun get => clamp_u8_double (conv3x3At K get)) P junk r

/-- Model of mpi_apply_sobel on rank r. -/
def mpi_apply_sobel (img : Image) (P : ℕ) (junk : ℕ → Buf) (r : ℕ) : Buf :=
  mpiApplyStencil img sobelAt P junk r

theorem one_le_adjLo (v : ℕ) : 1 ≤ adjLo v := by
  unfold adjLo
  split <;> omega

theorem adjHi_le {v bound : ℕ} (h : v ≤ bound) : adjHi v bound ≤ bound - 1 := by
  unfold adjHi
  split <;> omega

theorem sentDown_of_pos (lh : ℕ → ℕ) (bufs : ℕ → Buf) {s : ℕ}
    (h : 1 ≤ lh s) (x c : ℕ) :
    sentDown lh bufs s x c = bufs s (lh s) x c := by
  cases s with
  | zero =>
    simp only [sentDown]
    rw [if_pos h]
  | succ n =>
    simp only [sentDown]
    rw [if_pos h]

theorem exchange_halo_owned (P : ℕ) (lh : ℕ → ℕ) (bufs : ℕ → Buf)
    {r ly : ℕ} (h1 : 1 ≤ ly) (h2 : ly ≤ lh r) (x c : ℕ) :
    exchange_halo P lh bufs r ly x c = bufs r ly x c := by
  unfold exchange_halo
  rw [if_neg (by omega), if_neg (by omega)]

theorem scatterBufs_owned (img : Image) (P : ℕ) (junk : ℕ → Buf)
    {r ly : ℕ} (h1 : 1 ≤ ly) (h2 : ly ≤ local_h img.h P r) (x c : ℕ) :
    scatterBufs img P junk r ly x c
      = img.data (start_row img.h P r + ly - 1) x c := by
  unfold scatterBufs
  rw [if_pos ⟨h1, h2⟩]

/-- Core halo correctness: when rank r owns row gy = start_row + ly - 1
and gy is an interior row (1 <= gy and gy + 1 < H), every row the 3x3
stencil at row ly reads from the exchanged local buffer (rows ly-1, ly,
ly+1, i.e. ly-1+ky for ky in 0..2) holds exactly the corresponding
global image row gy-1+ky. -/
theorem exchanged_read (img : Image) (P : ℕ) (junk : ℕ → Buf) (hP : 1 ≤ P)
    {r ly ky : ℕ} (hr : r < P) (h1 : 1 ≤ ly)
    (h2 : ly ≤ local_h img.h P r) (hky : ky ≤ 2)
    (hg1 : 1 ≤ start_row img.h P r + ly - 1)
    (hg2 : start_row img.h P r + ly - 1 + 1 < img.h) (x c : ℕ) :
    exchange_halo P (local_h img.h P) (scatterBufs img P junk) r
        (ly - 1 + ky) x c
      = img.data (start_row img.h P r + ly - 1 - 1 + ky) x c := by
  interval_cases ky
  · -- read one row above the centre
    rcases Nat.lt_or_ge 1 ly with hly | hly
    · -- ly >= 2: still an owned row
      rw [exchange_halo_owned P _ _ (by omega) (by omega),
        scatterBufs_owned img P junk (by omega) (by omega)]
      congr 1
      omega
    · -- ly = 1: reads the top halo, which the exchange filled from
      -- the last owned row of rank r-1
      have hly1 : ly = 1 := by omega
      subst hly1
      have hst : 1 ≤ start_row img.h P r := by omega
      have hr0 : r ≠ 0 := by
        intro h0
        rw [h0, start_row_zero] at hst
        omega
      have hr1 : 1 ≤ r := by omega
      have hlh : 1 ≤ local_h img.h P (r - 1) :=
        le_trans h2 (local_h_antitone img.h P (by omega))
      have hsucc : start_row img.h P r
          = start_row img.h P (r - 1) + local_h img.h P (r - 1) := by
        have := start_row_succ img.h P (r - 1)
        rw [show r - 1 + 1 = r by omega] at this
        exact this
      unfold exchange_halo
      rw [if_pos (by omega), if_neg hr0,
        sentDown_of_pos _ _ hlh,
        scatterBufs_owned img P junk hlh (le_refl _)]
      congr 1
      omega
  · -- the centre row itself: an owned row
    rw [show ly - 1 + 1 = ly by omega,
      exchange_halo_owned P _ _ h1 h2,
      scatterBufs_owned img P junk h1 h2]
    congr 1
    omega
  · -- read one row below the centre
    rcases Nat.lt_or_ge ly (local_h img.h P r) with hly | hly
    · -- ly < local_h: still an owned row
      rw [show ly - 1 + 2 = ly + 1 by omega,
        exchange_halo_owned P _ _ (by omega) (by omega),
        scatterBufs_owned img P junk (by omega) (by omega)]
      congr 1
      omega
    · -- ly = local_h: reads the bottom halo, which the exchange filled
      -- from the first owned row of rank r+1
      have hly1 : ly = local_h img.h P r := by omega
      have hlow : start_row img.h P r + local_h img.h P r < img.h := by omega
      have hrP : r + 1 < P := by
        by_contra hc
        have hrP1 : r + 1 = P := by omega
        have := start_row_succ img.h P r
        rw [hrP1, start_row_self img.h P hP] at this
        omega
      have hlh1 : 1 ≤ local_h img.h P (r + 1) := by
        by_contra hc
        have h0 : local_h img.h P (r + 1) = 0 := by omega
        have hH := start_row_eq_H_of_empty img.h P hP (le_of_lt hrP) h0
        have := start_row_succ img.h P r
        omega
      unfold exchange_halo
      rw [if_neg (by omega), if_pos (by omega), if_pos hrP,
        scatterBufs_owned img P junk (le_refl _) hlh1]
      have := start_row_succ img.h P r
      congr 1
      omega

/-- Per-pixel refinement: on every owned row, the rank-local stencil
pass of the distributed execution computes exactly the byte the serial
single-pass implementation computes at the corresponding global pixel,
for any per-window computation f. -/
theorem mpiStencil_eq_serial (img : Image) (f : (Fin 3 → Fin 3 → ℕ) → ℕ)
    (P : ℕ) (junk : ℕ → Buf) (hP : 1 ≤ P) (hl : img.loaded = true)
    (hs : validSel img) {r ly : ℕ} (hr : r < P) (h1 : 1 ≤ ly)
    (h2 : ly ≤ local_h img.h P r) (x c : ℕ) :
    mpiApplyStencil img f P junk r ly x c
      = (applyStencil img f).data (start_row img.h P r + ly - 1) x c := by
  have hser : (applyStencil img f).data = fun y x c =>
      if inRegion img y x then f (window img.data y x c)
      else img.data y x c := by
    unfold applyStencil
    rw [hl]
    rfl
  simp only [hser]
  by_cases hreg : inRegion img (start_row img.h P r + ly - 1) x
  · rw [if_pos hreg]
    unfold mpiApplyStencil
    rw [if_pos ⟨h1, h2, hreg⟩]
    have hg1 : 1 ≤ start_row img.h P r + ly - 1 :=
      le_trans (one_le_adjLo img.y1) hreg.1
    have hg2 : start_row img.h P r + ly - 1 + 1 < img.h := by
      have hb := adjHi_le hs.2.2.2
      have := hreg.2.1
      omega
    congr 1
    funext ky kx
    unfold window
    exact exchanged_read img P junk hP hr h1 h2 (Fin.is_le ky) hg1 hg2 _ c
  · rw [if_neg hreg]
    unfold mpiApplyStencil
    rw [if_neg (by
      intro hcon
      exact hreg hcon.2.2),
      exchange_halo_owned P _ _ h1 h2,
      scatterBufs_owned img P junk h1 h2]

/-- The EDGE kernel table of the editors. -/
def K_EDGE : Fin 3 → Fin 3 → ℚ :=
  ![![-1, -1, -1], ![-1, 8, -1], ![-1, -1, -1]]

/-- The GAUSSIAN_BLUR kernel table of the editors. -/
def K_GAUSS : Fin 3 → Fin 3 → ℚ :=
  ![![1/16, 2/16, 1/16], ![2/16, 4/16, 2/16], ![1/16, 2/16, 1/16]]

/-- A concrete loaded 4x4 single-channel test image with distinct
pixel values and full selection, used by witnesses. -/
def imgT : Image :=
  { w := 4, h := 4, ch := 1, data := fun y x _ => 10 * y + x,
    x1 := 0, y1 := 0, x2 := 4, y2 := 4, loaded := true }

/-- C3: for every H >= 1 and P >= 1 the block-row partition gives each
rank either floor(H/P) or ceil(H/P) rows, the ranks below H mod P (and
exactly those) get the larger size, start rows chain by
start_row(r+1) = start_row(r) + local_h(r) from start_row(0) = 0, the
local heights sum to H, and partition(10,3) yields heights 4,3,3 with
start rows 0,4,7. -/
theorem partition_correct (H P : ℕ) (hH : 1 ≤ H) (hP : 1 ≤ P) :
    (∀ r, r < P → local_h H P r = H / P ∨ local_h H P r = (H + P - 1) / P) ∧
    (∀ r, r < P → (local_h H P r = H / P + 1 ↔ r < H % P)) ∧
    start_row H P 0 = 0 ∧
    (∀ r, start_row H P (r + 1) = start_row H P r + local_h H P r) ∧
    (∑ r ∈ Finset.range P, local_h H P r = H) ∧
    (local_h 10 3 0 = 4 ∧ local_h 10 3 1 = 3 ∧ local_h 10 3 2 = 3 ∧
      start_row 10 3 0 = 0 ∧ start_row 10 3 1 = 4 ∧ start_row 10 3 2 = 7) := by
  refine ⟨?_, ?_, start_row_zero H P, start_row_succ H P,
    sum_local_h H P hP, by decide⟩
  · intro r hr
    unfold local_h
    by_cases h : r < H % P
    · right
      rw [if_pos h, ceil_div_of_mod_ne_zero H P hP (by omega)]
    · left
      rw [if_neg h]
      omega
  · intro r hr
    constructor
    · intro hlh
      by_contra h
      rw [local_h, if_neg h] at hlh
      omega
    · intro h
      rw [local_h, if_pos h]

theorem partition_correct_witness :
    (1 ≤ 10 ∧ 1 ≤ 3) ∧
    ((∀ r, r < 3 → local_h 10 3 r = 10 / 3 ∨
        local_h 10 3 r = (10 + 3 - 1) / 3) ∧
      (∀ r, r < 3 → (local_h 10 3 r = 10 / 3 + 1 ↔ r < 10 % 3)) ∧
      start_row 10 3 0 = 0 ∧
      (∀ r, start_row 10 3 (r + 1) = start_row 10 3 r + local_h 10 3 r) ∧
      (∑ r ∈ Finset.range 3, local_h 10 3 r = 10) ∧
      (local_h 10 3 0 = 4 ∧ local_h 10 3 1 = 3 ∧ local_h 10 3 2 = 3 ∧
        start_row 10 3 0 = 0 ∧ start_row 10 3 1 = 4 ∧
        start_row 10 3 2 = 7)) :=
  ⟨⟨by decide, by decide⟩, partition_correct 10 3 (by decide) (by decide)⟩

/-- C1: under the distributed block-row execution every global row is
owned by some rank (coverage), and on every owned row and column both
the 3x3 convolution and the Sobel pass of the MPI implementation
produce, for any kernel, any selection, any rank count P >= 1 (whether
or not P divides the height) and any uninitialised halo contents,
exactly the byte the strictly sequential implementation produces at the
corresponding global pixel. -/
theorem distributed_matches_serial (img : Image) (K : Fin 3 → Fin 3 → ℚ)
    (P : ℕ) (hP : 1 ≤ P) (hl : img.loaded = true) (hs : validSel img) :
    (∀ gy, gy < img.h → ∃ r, r < P ∧ start_row img.h P r ≤ gy ∧
        gy < start_row img.h P r + local_h img.h P r) ∧
    (∀ junk r ly x c, r < P → 1 ≤ ly → ly ≤ local_h img.h P r →
      mpi_apply_conv3x3 img K P junk r ly x c
        = (apply_conv3x3 img K).data (start_row img.h P r + ly - 1) x c) ∧
    (∀ junk r ly x c, r < P → 1 ≤ ly → ly ≤ local_h img.h P r →
      mpi_apply_sobel img P junk r ly x c
        = (apply_sobel img).data (start_row img.h P r + ly - 1) x c) := by
  refine ⟨fun gy hgy => exists_owner img.h P hP hgy, ?_, ?_⟩
  · intro junk r ly x c hr h1 h2
    exact mpiStencil_eq_serial img _ P junk hP hl hs hr h1 h2 x c
  · intro junk r ly x c hr h1 h2
    exact mpiStencil_eq_serial img _ P junk hP hl hs hr h1 h2 x c

theorem distributed_matches_serial_witness :
    mpi_apply_conv3x3 imgT K_EDGE 3 (fun _ _ _ _ => 9) 1 1 2 0
      = (apply_conv3x3 imgT K_EDGE).data (start_row imgT.h 3 1 + 1 - 1) 2 0 :=
  (distributed_matches_serial imgT K_EDGE 3 (by decide) (by decide)
    (by decide)).2.1 (fun _ _ _ _ => 9) 1 1 2 0 (by decide) (by decide)
    (by decide)

theorem adjLo_le {v y : ℕ} (h1 : v ≤ y) (h2 : 1 ≤ y) : adjLo v ≤ y := by
  unfold adjLo
  split <;> omega

theorem lt_adjHi {v bound y : ℕ} (h1 : y < v) (h2 : y + 1 < bound) :
    y < adjHi v bound := by
  unfold adjHi
  split <;> omega

theorem not_inRegion_border (img : Image) (hs : validSel img) {y x : ℕ}
    (hb : y = 0 ∨ y = img.h - 1 ∨ x = 0 ∨ x = img.w - 1) :
    ¬inRegion img y x := by
  rintro ⟨hy1, hy2, hx1, hx2⟩
  have h1 := one_le_adjLo img.y1
  have h2 := adjHi_le hs.2.2.2
  have h3 := one_le_adjLo img.x1
  have h4 := adjHi_le hs.2.1
  rcases hb with h | h | h | h <;> omega

theorem applyStencil_not_inRegion (img : Image)
    (f : (Fin 3 → Fin 3 → ℕ) → ℕ) {y x : ℕ} (hreg : ¬inRegion img y x)
    (c : ℕ) : (applyStencil img f).data y x c = img.data y x c := by
  unfold applyStencil
  by_cases hl : img.loaded = false
  · rw [if_pos hl]
  · rw [if_neg hl]
    exact if_neg hreg

theorem mpiStencil_not_inRegion (img : Image)
    (f : (Fin 3 → Fin 3 → ℕ) → ℕ) (P : ℕ) (junk : ℕ → Buf) {r ly : ℕ}
    (h1 : 1 ≤ ly) (h2 : ly ≤ local_h img.h P r)
    (hreg : ¬inRegion img (start_row img.h P r + ly - 1) x) (c : ℕ) :
    mpiApplyStencil img f P junk r ly x c
      = img.data (start_row img.h P r + ly - 1) x c := by
  unfold mpiApplyStencil
  rw [if_neg (fun hcon => hreg hcon.2.2),
    exchange_halo_owned P _ _ h1 h2,
    scatterBufs_owned img P junk h1 h2]

/-- C6: convolution (any kernel) and Sobel, in the serial editor and in
the distributed implementation, never modify a pixel in row 0, the last
row, column 0 or the last column of the whole image, whatever the
selection is. -/
theorem border_never_modified (img : Image) (K : Fin 3 → Fin 3 → ℚ)
    (hs : validSel img) {y x : ℕ}
    (hb : y = 0 ∨ y = img.h - 1 ∨ x = 0 ∨ x = img.w - 1) (c : ℕ) :
    (apply_conv3x3 img K).data y x c = img.data y x c ∧
    (apply_sobel img).data y x c = img.data y x c ∧
    (∀ P junk r ly, r < P → 1 ≤ ly → ly ≤ local_h img.h P r →
      start_row img.h P r + ly - 1 = y →
      mpi_apply_conv3x3 img K P junk r ly x c = img.data y x c ∧
      mpi_apply_sobel img P junk r ly x c = img.data y x c) := by
  have hreg := not_inRegion_border img hs hb
  refine ⟨applyStencil_not_inRegion img _ hreg c,
    applyStencil_not_inRegion img _ hreg c, ?_⟩
  intro P junk r ly hr h1 h2 hgy
  constructor
  · rw [← hgy]
    exact mpiStencil_not_inRegion img _ P junk h1 h2 (by rwa [hgy]) c
  · rw [← hgy]
    exact mpiStencil_not_inRegion img _ P junk h1 h2 (by rwa [hgy]) c

theorem border_never_modified_witness :
    (validSel imgT ∧ ((0 : ℕ) = 0 ∨ (0 : ℕ) = imgT.h - 1 ∨ (3 : ℕ) = 0 ∨
      (3 : ℕ) = imgT.w - 1)) ∧
    ((apply_conv3x3 imgT K_EDGE).data 0 3 0 = imgT.data 0 3 0 ∧
      (apply_sobel imgT).data 0 3 0 = imgT.data 0 3 0 ∧
      (∀ P junk r ly, r < P → 1 ≤ ly → ly ≤ local_h imgT.h P r →
        start_row imgT.h P r + ly - 1 = 0 →
        mpi_apply_conv3x3 imgT K_EDGE P junk r ly 3 0 = imgT.data 0 3 0 ∧
        mpi_apply_sobel imgT P junk r ly 3 0 = imgT.data 0 3 0)) :=
  ⟨⟨by decide, Or.inl rfl⟩,
    border_never_modified imgT K_EDGE (by decide) (Or.inl rfl) 0⟩

/-- A concrete 4x4 single-channel image, all pixels 100 except pixel
(2,2) = 200, with full selection: the scenario of claim C7. -/
def imgC7 : Image :=
  { w := 4, h := 4, ch := 1,
    data := fun y x _ => if y = 2 ∧ x = 2 then 200 else 100,
    x1 := 0, y1 := 0, x2 := 4, y2 := 4, loaded := true }

/-- C7: at every non-border pixel of the selection the convolution
output byte is the clamped rounded kernel-weighted sum of the 3x3
source window, and in the concrete 4x4 scenario the edge kernel at
pixel (2,2) yields the raw sum 800, stored as 255. -/
theorem conv_formula_and_example (img : Image) (K : Fin 3 → Fin 3 → ℚ)
    (hl : img.loaded = true) :
    (∀ y x c, img.y1 ≤ y → y < img.y2 → img.x1 ≤ x → x < img.x2 →
      1 ≤ y → y + 1 < img.h → 1 ≤ x → x + 1 < img.w →
      (apply_conv3x3 img K).data y x c
        = clamp_u8_double (conv3x3At K (window img.data y x c))) ∧
    (conv3x3At K_EDGE (window imgC7.data 2 2 0) = 800 ∧
      (apply_conv3x3 imgC7 K_EDGE).data 2 2 0 = 255) := by
  constructor
  · intro y x c hy1 hy2 hx1 hx2 hyb1 hyb2 hxb1 hxb2
    have hreg : inRegion img y x :=
      ⟨adjLo_le hy1 hyb1, lt_adjHi hy2 hyb2, adjLo_le hx1 hxb1,
        lt_adjHi hx2 hxb2⟩
    unfold apply_conv3x3 applyStencil
    rw [hl]
    exact if_pos hreg
  · have hsum : conv3x3At K_EDGE (window imgC7.data 2 2 0) = 800 := by
      norm_num [conv3x3At, Fin.sum_univ_succ, window, imgC7, K_EDGE,
        Matrix.cons_val_zero, Matrix.cons_val_one, Matrix.head_cons]
    refine ⟨hsum, ?_⟩
    have hreg : inRegion imgC7 2 2 := by decide
    have hdata : (apply_conv3x3 imgC7 K_EDGE).data = fun y x c =>
        if inRegion imgC7 y x then
          clamp_u8_double (conv3x3At K_EDGE (window imgC7.data y x c))
        else imgC7.data y x c := rfl
    rw [hdata]
    simp only [if_pos hreg]
    rw [hsum]
    norm_num [clamp_u8_double]

theorem conv_formula_and_example_witness :
    imgT.loaded = true ∧
    ((apply_conv3x3 imgT K_EDGE).data 1 2 0
        = clamp_u8_double (conv3x3At K_EDGE (window imgT.data 1 2 0)) ∧
      conv3x3At K_EDGE (window imgC7.data 2 2 0) = 800 ∧
      (apply_conv3x3 imgC7 K_EDGE).data 2 2 0 = 255) :=
  ⟨rfl,
    ⟨(conv_formula_and_example imgT K_EDGE rfl).1 1 2 0 (by decide)
      (by decide) (by decide) (by decide) (by decide) (by decide) (by decide)
      (by decide),
    (conv_formula_and_example imgT K_EDGE rfl).2⟩⟩

/-- A 3x3 single-channel image that is 0 everywhere except the centre
pixel, which is 2: a Gaussian blur at the centre sums to exactly 1/2. -/
def imgG : Image :=
  { w := 3, h := 3, ch := 1,
    data := fun y x _ => if y = 1 ∧ x = 1 then 2 else 0,
    x1 := 0, y1 := 0, x2 := 3, y2 := 3, loaded := true }

theorem roundHalfEven_half : roundHalfEven (1/2) = 0 := by
  have h := roundHalfEven_add_half 0
  norm_num at h
  exact h

/-- C4 counterexample: the Gaussian blur of imgG at the centre has the
exact convolution sum 1/2; the code stores 0 for it (lrint rounds the
tie to the even integer), while the round-half-away-from-zero clamp the
claim describes would store 1. -/
theorem clamp_rounding_counterexample :
    conv3x3At K_GAUSS (window imgG.data 1 1 0) = 1/2 ∧
    (apply_conv3x3 imgG K_GAUSS).data 1 1 0 = 0 ∧
    clamp_u8_double (1/2) = 0 ∧
    clampHalfAwaySpec (1/2) = 1 := by
  have hsum : conv3x3At K_GAUSS (window imgG.data 1 1 0) = 1/2 := by
    norm_num [conv3x3At, Fin.sum_univ_succ, window, imgG, K_GAUSS,
      Matrix.cons_val_zero, Matrix.cons_val_one, Matrix.head_cons]
  have hclamp : clamp_u8_double (1/2) = 0 := by
    rw [clamp_u8_double, if_neg (by norm_num), if_neg (by norm_num),
      roundHalfEven_half]
    rfl
  refine ⟨hsum, ?_, hclamp, ?_⟩
  · have hreg : inRegion imgG 1 1 := by decide
    have hdata : (apply_conv3x3 imgG K_GAUSS).data = fun y x c =>
        if inRegion imgG y x then
          clamp_u8_double (conv3x3At K_GAUSS (window imgG.data y x c))
        else imgG.data y x c := rfl
    rw [hdata]
    simp only [if_pos hreg]
    rw [hsum, hclamp]
  · rw [clampHalfAwaySpec, if_neg (by norm_num), if_neg (by norm_num),
      roundHalfAwayFromZero, if_pos (by norm_num)]
    norm_num

/-- C4 as amended: the stored byte is the value rounded to the nearest
integer with ties to even (the default lrint rounding), then clamped to
[0,255]; a value with fractional part exactly one half rounds to the
nearest even integer, never away from zero. -/
theorem clamp_rounds_half_to_even (v : ℚ) (n : ℤ) (h0 : 0 ≤ n)
    (h255 : n ≤ 254) :
    clamp_u8_double v = clampHalfEvenSpec v ∧
    clamp_u8_double ((n : ℚ) + 1/2)
      = (if n % 2 = 0 then n else n + 1).toNat := by
  refine ⟨clamp_u8_double_eq_spec v, ?_⟩
  have hn0 : (0 : ℚ) ≤ (n : ℚ) := by exact_mod_cast h0
  have hn255 : (n : ℚ) ≤ 254 := by exact_mod_cast h255
  rw [clamp_u8_double, if_neg (by linarith), if_neg (by linarith),
    roundHalfEven_add_half]

theorem clamp_rounds_half_to_even_witness :
    ((0 : ℤ) ≤ 2 ∧ (2 : ℤ) ≤ 254) ∧
    (clamp_u8_double (5/2) = clampHalfEvenSpec (5/2) ∧
      clamp_u8_double ((2 : ℤ) + 1/2)
        = (if (2 : ℤ) % 2 = 0 then (2 : ℤ) else 2 + 1).toNat) :=
  ⟨⟨by norm_num, by norm_num⟩,
    clamp_rounds_half_to_even (5/2) 2 (by norm_num) (by norm_num)⟩

/-- A concrete loaded 4x4 image with full selection for the selection
counterexamples. -/
def imgS : Image :=
  { w := 4, h := 4, ch := 1, data := fun y x _ => y + x,
    x1 := 0, y1 := 0, x2 := 4, y2 := 4, loaded := true }

/-- C5 counterexample: the call img_select_rect(3, 0, 1, 2) has
x1 = 3 >= x2 = 1, so by the claim it must fail and leave the selection
unchanged; instead the source swaps the pair and succeeds, changing the
selection from (0,0,4,4) to (1,0,3,2). -/
theorem select_rect_counterexample :
    (1 : ℤ) ≤ 3 ∧
    (img_select_rect imgS 3 0 1 2).x1 = 1 ∧
    (img_select_rect imgS 3 0 1 2).x2 = 3 ∧
    (img_select_rect imgS 3 0 1 2).y1 = 0 ∧
    (img_select_rect imgS 3 0 1 2).y2 = 2 ∧
    imgS.x1 = 0 ∧ imgS.x2 = 4 := by
  refine ⟨by norm_num, ?_, ?_, ?_, ?_, rfl, rfl⟩ <;> rfl

/-- C5 as amended: on a loaded image, img_select_rect first swaps each
coordinate pair into ascending order, and then fails (leaving the whole
image state unchanged) exactly when, after that swap, the two x
coordinates coincide, the two y coordinates coincide, or the ordered
rectangle leaves the image bounds: under that condition the image is
returned unchanged, and otherwise the call succeeds, storing the
swapped rectangle as the new selection and leaving every other field
(dimensions, channels, pixels, loaded flag) unchanged. Arguments merely
given in descending order are reordered and may succeed. -/
theorem select_rect_swap_then_validate (img : Image) (a b c d : ℤ)
    (hl : img.loaded = true) :
    ((min a c = max a c ∨ min b d = max b d ∨ min a c < 0 ∨
        min b d < 0 ∨ (img.w : ℤ) < max a c ∨ (img.h : ℤ) < max b d) →
      img_select_rect img a b c d = img) ∧
    (¬(min a c = max a c ∨ min b d = max b d ∨ min a c < 0 ∨
        min b d < 0 ∨ (img.w : ℤ) < max a c ∨ (img.h : ℤ) < max b d) →
      (img_select_rect img a b c d).x1 = (min a c).toNat ∧
      (img_select_rect img a b c d).y1 = (min b d).toNat ∧
      (img_select_rect img a b c d).x2 = (max a c).toNat ∧
      (img_select_rect img a b c d).y2 = (max b d).toNat ∧
      (img_select_rect img a b c d).w = img.w ∧
      (img_select_rect img a b c d).h = img.h ∧
      (img_select_rect img a b c d).ch = img.ch ∧
      (img_select_rect img a b c d).data = img.data ∧
      (img_select_rect img a b c d).loaded = img.loaded) := by
  have hnl : ¬img.loaded = false := by rw [hl]; simp
  constructor
  · intro hinv
    unfold img_select_rect
    rw [if_neg hnl, if_pos (by tauto)]
  · intro hok
    unfold img_select_rect
    rw [if_neg hnl, if_neg (by tauto)]
    exact ⟨rfl, rfl, rfl, rfl, rfl, rfl, rfl, rfl, rfl⟩

theorem select_rect_swap_then_validate_witness :
    (imgS.loaded = true ∧
      (min (2 : ℤ) 2 = max (2 : ℤ) 2 ∨ min (0 : ℤ) 3 = max (0 : ℤ) 3 ∨
        min (2 : ℤ) 2 < 0 ∨ min (0 : ℤ) 3 < 0 ∨
        (imgS.w : ℤ) < max (2 : ℤ) 2 ∨ (imgS.h : ℤ) < max (0 : ℤ) 3) ∧
      ¬(min (3 : ℤ) 1 = max (3 : ℤ) 1 ∨ min (0 : ℤ) 2 = max (0 : ℤ) 2 ∨
        min (3 : ℤ) 1 < 0 ∨ min (0 : ℤ) 2 < 0 ∨
        (imgS.w : ℤ) < max (3 : ℤ) 1 ∨ (imgS.h : ℤ) < max (0 : ℤ) 2)) ∧
    img_select_rect imgS 2 0 2 3 = imgS ∧
    ((img_select_rect imgS 3 0 1 2).x1 = (min (3 : ℤ) 1).toNat ∧
      (img_select_rect imgS 3 0 1 2).y1 = (min (0 : ℤ) 2).toNat ∧
      (img_select_rect imgS 3 0 1 2).x2 = (max (3 : ℤ) 1).toNat ∧
      (img_select_rect imgS 3 0 1 2).y2 = (max (0 : ℤ) 2).toNat ∧
      (img_select_rect imgS 3 0 1 2).w = imgS.w ∧
      (img_select_rect imgS 3 0 1 2).h = imgS.h ∧
      (img_select_rect imgS 3 0 1 2).ch = imgS.ch ∧
      (img_select_rect imgS 3 0 1 2).data = imgS.data ∧
      (img_select_rect imgS 3 0 1 2).loaded = imgS.loaded) :=
  ⟨⟨rfl, Or.inl (by norm_num), by decide⟩,
    (select_rect_swap_then_validate imgS 2 0 2 3 rfl).1
      (Or.inl (by norm_num)),
    (select_rect_swap_then_validate imgS 3 0 1 2 rfl).2 (by decide)⟩

/-- The C9 concrete scenario: select (1,1,3,3) on the 4x4 image imgT,
then crop. -/
def croppedT : Image := img_crop (img_select_rect imgT 1 1 3 3)

/-- C9: crop reallocates storage to the extent of the current selection
(the new buffer holds exactly the selected sub-block) and resets the
selection to the full new extent; concretely, selecting (1,1,3,3) on a
4x4 image and cropping yields a 2x2 image holding the corresponding
sub-block whose selection is (0,0,2,2). -/
theorem crop_resets_selection (img : Image) (hl : img.loaded = true) :
    ((img_crop img).w = img.x2 - img.x1 ∧
      (img_crop img).h = img.y2 - img.y1 ∧
      (img_crop img).ch = img.ch ∧
      (img_crop img).x1 = 0 ∧ (img_crop img).y1 = 0 ∧
      (img_crop img).x2 = img.x2 - img.x1 ∧
      (img_crop img).y2 = img.y2 - img.y1 ∧
      (∀ y x c, (img_crop img).data y x c
        = img.data (img.y1 + y) (img.x1 + x) c)) ∧
    (croppedT.w = 2 ∧ croppedT.h = 2 ∧ croppedT.x1 = 0 ∧ croppedT.y1 = 0 ∧
      croppedT.x2 = 2 ∧ croppedT.y2 = 2 ∧
      ∀ y, y < 2 → ∀ x, x < 2 →
        croppedT.data y x 0 = imgT.data (1 + y) (1 + x) 0) := by
  constructor
  · have hnl : ¬img.loaded = false := by rw [hl]; simp
    unfold img_crop
    rw [if_neg hnl]
    exact ⟨rfl, rfl, rfl, rfl, rfl, rfl, rfl, fun y x c => rfl⟩
  · exact ⟨rfl, rfl, rfl, rfl, rfl, rfl, by decide⟩

theorem crop_resets_selection_witness :
    imgT.loaded = true ∧
    ((img_crop imgT).w = imgT.x2 - imgT.x1 ∧
      (img_crop imgT).h = imgT.y2 - imgT.y1 ∧
      (img_crop imgT).ch = imgT.ch ∧
      (img_crop imgT).x1 = 0 ∧ (img_crop imgT).y1 = 0 ∧
      (img_crop imgT).x2 = imgT.x2 - imgT.x1 ∧
      (img_crop imgT).y2 = imgT.y2 - imgT.y1 ∧
      (∀ y x c, (img_crop imgT).data y x c
        = imgT.data (imgT.y1 + y) (imgT.x1 + x) c)) ∧
    (croppedT.w = 2 ∧ croppedT.h = 2 ∧ croppedT.x1 = 0 ∧ croppedT.y1 = 0 ∧
      croppedT.x2 = 2 ∧ croppedT.y2 = 2 ∧
      ∀ y, y < 2 → ∀ x, x < 2 →
        croppedT.data y x 0 = imgT.data (1 + y) (1 + x) 0) :=
  ⟨rfl, crop_resets_selection imgT rfl⟩

theorem equalize_data_of (img : Image) (hl : img.loaded = true)
    (hch : img.ch = 1) :
    (equalize img).data = fun y x c =>
      clamp_u8_double (255 * (cdf img (img.data y x c) : ℚ) /
        ((img.w * img.h : ℕ) : ℚ)) := by
  unfold equalize
  rw [hl, hch]
  rfl

/-- A concrete loaded 2x2 single-channel image for the equalize
witnesses: one pixel of value 3, three pixels of value 7. -/
def imgE : Image :=
  { w := 2, h := 2, ch := 1,
    data := fun y x _ => if y = 0 ∧ x = 0 then 3 else 7,
    x1 := 0, y1 := 0, x2 := 2, y2 := 2, loaded := true }

/-- C8: on a loaded single-channel image, equalize replaces every pixel
of value p by clamp(round(255 * cdf[p] / area)), where cdf[p] is the
running cumulative sum, up to p, of the 256-bin histogram of the whole
image and area = w * h is the total pixel count. -/
theorem equalize_remaps_by_cdf (img : Image) (hl : img.loaded = true)
    (hch : img.ch = 1) (hw : 1 ≤ img.w) (hh : 1 ≤ img.h) (y x : ℕ)
    (hy : y < img.h) (hx : x < img.w) :
    (equalize img).data y x 0
      = clamp_u8_double (255 *
          ((∑ k ∈ Finset.range (img.data y x 0 + 1), hist img k : ℕ) : ℚ) /
          ((img.w * img.h : ℕ) : ℚ)) := by
  simp only [equalize_data_of img hl hch]
  rfl

theorem equalize_remaps_by_cdf_witness :
    (imgE.loaded = true ∧ imgE.ch = 1 ∧ 1 ≤ imgE.w ∧ 1 ≤ imgE.h ∧
      0 < imgE.h ∧ 0 < imgE.w) ∧
    (equalize imgE).data 0 0 0
      = clamp_u8_double (255 *
          ((∑ k ∈ Finset.range (imgE.data 0 0 0 + 1), hist imgE k : ℕ) : ℚ) /
          ((imgE.w * imgE.h : ℕ) : ℚ)) :=
  ⟨⟨rfl, rfl, by decide, by decide, by decide, by decide⟩,
    equalize_remaps_by_cdf imgE rfl rfl (by decide) (by decide) 0 0
      (by decide) (by decide)⟩

/-- C10: the equalization remap is monotone non-decreasing in intensity;
whenever one pixel of the original single-channel image is at most
another, the same order holds between their remapped values. -/
theorem equalize_monotone (img : Image) (hl : img.loaded = true)
    (hch : img.ch = 1) (hw : 1 ≤ img.w) (hh : 1 ≤ img.h)
    (y x y' x' : ℕ) (hy : y < img.h) (hx : x < img.w) (hy' : y' < img.h)
    (hx' : x' < img.w) (hle : img.data y x 0 ≤ img.data y' x' 0) :
    (equalize img).data y x 0 ≤ (equalize img).data y' x' 0 := by
  simp only [equalize_data_of img hl hch]
  apply clamp_u8_double_mono
  have hcdf : cdf img (img.data y x 0) ≤ cdf img (img.data y' x' 0) := by
    unfold cdf
    exact Finset.sum_le_sum_of_subset (Finset.range_subset.mpr (by omega))
  have harea : (0 : ℚ) ≤ ((img.w * img.h : ℕ) : ℚ) := by positivity
  have hc : ((cdf img (img.data y x 0) : ℕ) : ℚ)
      ≤ ((cdf img (img.data y' x' 0) : ℕ) : ℚ) := by exact_mod_cast hcdf
  gcongr

theorem equalize_monotone_witness :
    (imgE.loaded = true ∧ imgE.ch = 1 ∧ 1 ≤ imgE.w ∧ 1 ≤ imgE.h ∧
      0 < imgE.h ∧ 0 < imgE.w ∧ imgE.data 0 0 0 ≤ imgE.data 1 1 0) ∧
    (equalize imgE).data 0 0 0 ≤ (equalize imgE).data 1 1 0 :=
  ⟨⟨rfl, rfl, by decide, by decide, by decide, by decide, by decide⟩,
    equalize_monotone imgE rfl rfl (by decide) (by decide) 0 0 1 1
      (by decide) (by decide) (by decide) (by decide) (by decide)⟩

/-- A loaded 1x1 single-channel image: with two execution units, rank 0
owns the single row and rank 1 owns nothing. -/
def img1 : Image :=
  { w := 1, h := 1, ch := 1, data := fun _ _ _ => 5,
    x1 := 0, y1 := 0, x2 := 1, y2 := 1, loaded := true }

/-- C2 counterexample: on a 1-row image split over 2 units, rank 1 owns
no rows, so after the exchange the bottom halo of rank 0 holds the
uninitialised contents (here 7) of the buffer row 1 of rank 1. Rank 0
holds the global bottom edge (its owned rows end at the image height),
yet its bottom halo is neither a duplicate of its own last owned row
(value 5) nor any owned row of its neighbour, which owns none. -/
theorem halo_counterexample :
    local_h 1 2 0 = 1 ∧ local_h 1 2 1 = 0 ∧
    start_row 1 2 0 + local_h 1 2 0 = img1.h ∧
    exchange_halo 2 (local_h 1 2) (scatterBufs img1 2 (fun _ _ _ _ => 7)) 0
      (local_h 1 2 0 + 1) 0 0 = 7 ∧
    img1.data (start_row 1 2 0 + local_h 1 2 0 - 1) 0 0 = 5 :=
  ⟨rfl, rfl, rfl, rfl, rfl⟩

/-- C2 as amended: provided every unit owns at least one row (P at most
the image height), after the exchange each top halo holds either the
last owned row of the unit above or, for the global top unit, a
duplicate of its own first owned row; each bottom halo holds either the
first owned row of the unit below or, for the global bottom unit, a
duplicate of its own last owned row; and the exchange never modifies an
owned row of any buffer. -/
theorem halo_invariant_amended (img : Image) (P : ℕ) (junk : ℕ → Buf)
    (r x c : ℕ) (hP : 1 ≤ P) (hPH : P ≤ img.h) (hr : r < P) :
    (exchange_halo P (local_h img.h P) (scatterBufs img P junk) r 0 x c
      = if r = 0 then img.data (start_row img.h P r) x c
        else img.data (start_row img.h P r - 1) x c) ∧
    (exchange_halo P (local_h img.h P) (scatterBufs img P junk) r
        (local_h img.h P r + 1) x c
      = if r = P - 1 then
          img.data (start_row img.h P r + local_h img.h P r - 1) x c
        else img.data (start_row img.h P r + local_h img.h P r) x c) ∧
    (∀ bufs : ℕ → Buf, ∀ ly, 1 ≤ ly → ly ≤ local_h img.h P r →
      exchange_halo P (local_h img.h P) bufs r ly x c = bufs r ly x c) := by
  have hpos : ∀ s, s < P → 1 ≤ local_h img.h P s := by
    intro s hs
    have hd : 1 ≤ img.h / P := (Nat.one_le_div_iff (by omega)).mpr hPH
    unfold local_h
    split <;> omega
  refine ⟨?_, ?_, fun bufs ly h1 h2 => exchange_halo_owned P _ _ h1 h2 x c⟩
  · unfold exchange_halo
    rw [if_pos rfl]
    rcases Nat.eq_zero_or_pos r with hr0 | hr0
    · subst hr0
      rw [if_pos rfl, if_pos (hpos 0 hP),
        scatterBufs_owned img P junk (le_refl 1) (hpos 0 hP), if_pos rfl,
        Nat.add_sub_cancel]
    · have hlh : 1 ≤ local_h img.h P (r - 1) := hpos (r - 1) (by omega)
      rw [if_neg (by omega), sentDown_of_pos _ _ hlh,
        scatterBufs_owned img P junk hlh (le_refl _), if_neg (by omega)]
      have hsucc := start_row_succ img.h P (r - 1)
      rw [show r - 1 + 1 = r by omega] at hsucc
      congr 1
      omega
  · unfold exchange_halo
    rw [if_neg (by omega), if_pos rfl]
    by_cases hrl : r + 1 < P
    · rw [if_pos hrl,
        scatterBufs_owned img P junk (le_refl 1) (hpos (r + 1) hrl),
        if_neg (by omega)]
      have hsucc := start_row_succ img.h P r
      rw [Nat.add_sub_cancel, hsucc]
    · rw [if_neg hrl, if_pos (hpos r hr),
        scatterBufs_owned img P junk (hpos r hr) (le_refl _),
        if_pos (by omega)]

theorem halo_invariant_amended_witness :
    ((1 : ℕ) ≤ 2 ∧ 2 ≤ imgT.h ∧ 0 < 2) ∧
    ((exchange_halo 2 (local_h imgT.h 2) (scatterBufs imgT 2
        (fun _ _ _ _ => 9)) 0 0 1 0
      = if (0 : ℕ) = 0 then imgT.data (start_row imgT.h 2 0) 1 0
        else imgT.data (start_row imgT.h 2 0 - 1) 1 0) ∧
    (exchange_halo 2 (local_h imgT.h 2) (scatterBufs imgT 2
        (fun _ _ _ _ => 9)) 0 (local_h imgT.h 2 0 + 1) 1 0
      = if (0 : ℕ) = 2 - 1 then
          imgT.data (start_row imgT.h 2 0 + local_h imgT.h 2 0 - 1) 1 0
        else imgT.data (start_row imgT.h 2 0 + local_h imgT.h 2 0) 1 0) ∧
    (∀ bufs : ℕ → Buf, ∀ ly, 1 ≤ ly → ly ≤ local_h imgT.h 2 0 →
      exchange_halo 2 (local_h imgT.h 2) bufs 0 ly 1 0 = bufs 0 ly 1 0)) :=
  ⟨⟨by decide, by decide, by decide⟩,
    halo_invariant_amended imgT 2 (fun _ _ _ _ => 9) 0 1 0 (by decide)
      (by decide) (by decide)⟩

end ImageEditor
